import Mathlib

/-!
Verification development for `cnstd/utils/utils.py`.

The Python module is shallowly embedded: file contents are `List Nat`
(bytes), Python strings are Lean `String`s or `List Char`, the filesystem
and the network are explicit components of an environment record, and
exceptions are explicit error values.
-/

namespace Cnstd

/-! ## SHA-1 (embedding of `hashlib.sha1` as used by `check_sha1`)

`check_sha1` feeds the whole file content through `hashlib.sha1` in 1 MiB
chunks; incremental updates hash the concatenation, so the embedding hashes
the whole byte list at once. -/

/-- Truncation to an unsigned 32-bit word. -/
def w32 (x : Nat) : Nat := x % 4294967296

/-- Left rotation of a 32-bit word by `n` bits (for `x < 2^32`, `n ≤ 32`). -/
def rotl32 (n x : Nat) : Nat := (x * 2 ^ n) % 4294967296 + x / 2 ^ (32 - n)

/-- Bitwise complement on 32-bit words. -/
def not32 (x : Nat) : Nat := x ^^^ 4294967295

/-- Big-endian 32-bit word from four bytes. -/
def be32 (b0 b1 b2 b3 : Nat) : Nat := ((b0 * 256 + b1) * 256 + b2) * 256 + b3

/-- The sixteen 32-bit words of a 64-byte block, big-endian. -/
def blockWords (block : List Nat) : List Nat :=
  (List.range 16).map fun i =>
    be32 (block.getD (4 * i) 0) (block.getD (4 * i + 1) 0)
      (block.getD (4 * i + 2) 0) (block.getD (4 * i + 3) 0)

/-- Extend the message schedule by `n` further words
(`w[t] = rotl1 (w[t-3] xor w[t-8] xor w[t-14] xor w[t-16])`). -/
def extendWords : Nat → List Nat → List Nat
  | 0, ws => ws
  | n + 1, ws =>
    let t := ws.length
    extendWords n
      (ws ++ [rotl32 1 ((ws.getD (t - 3) 0 ^^^ ws.getD (t - 8) 0) ^^^
        (ws.getD (t - 14) 0 ^^^ ws.getD (t - 16) 0))])

/-- SHA-1 round logical function. -/
def sha1_f (i b c d : Nat) : Nat :=
  if i < 20 then (b &&& c) ||| (not32 b &&& d)
  else if i < 40 then (b ^^^ c) ^^^ d
  else if i < 60 then ((b &&& c) ||| (b &&& d)) ||| (c &&& d)
  else (b ^^^ c) ^^^ d

/-- SHA-1 round constants. -/
def sha1_k (i : Nat) : Nat :=
  if i < 20 then 1518500249
  else if i < 40 then 1859775393
  else if i < 60 then 2400959708
  else 3395469782

/-- State of the five SHA-1 working registers. -/
abbrev Sha1State := Nat × Nat × Nat × Nat × Nat

/-- One SHA-1 compression round. -/
def sha1_round (ws : List Nat) (st : Sha1State) (i : Nat) : Sha1State :=
  let a := st.1
  let b := st.2.1
  let c := st.2.2.1
  let d := st.2.2.2.1
  let e := st.2.2.2.2
  (w32 (rotl32 5 a + sha1_f i b c d + e + sha1_k i + ws.getD i 0),
    a, rotl32 30 b, c, d)

/-- Process one 64-byte block. -/
def processBlock (st : Sha1State) (block : List Nat) : Sha1State :=
  let ws := extendWords 64 (blockWords block)
  let r := (List.range 80).foldl (sha1_round ws) st
  (w32 (st.1 + r.1), w32 (st.2.1 + r.2.1), w32 (st.2.2.1 + r.2.2.1),
    w32 (st.2.2.2.1 + r.2.2.2.1), w32 (st.2.2.2.2 + r.2.2.2.2))

/-- SHA-1 padding: append `0x80`, zeros to 56 mod 64, then the 64-bit
big-endian bit length. -/
def sha1_pad (msg : List Nat) : List Nat :=
  let len := msg.length
  let k := (120 - (len + 1) % 64) % 64
  msg ++ [128] ++ List.replicate k 0 ++
    (List.range 8).map fun i => 8 * len / 2 ^ (8 * (7 - i)) % 256

/-- Split a padded message into 64-byte blocks. -/
def sha1_blocks (padded : List Nat) : List (List Nat) :=
  (List.range (padded.length / 64)).map fun i => (padded.drop (64 * i)).take 64

/-- Lower-case hexadecimal digit. -/
def hexChar (n : Nat) : Char :=
  if n < 10 then Char.ofNat (48 + n) else Char.ofNat (87 + n)

/-- Eight-character lower-case hexadecimal rendering of a 32-bit word. -/
def hex8 (x : Nat) : List Char :=
  (List.range 8).map fun i => hexChar (x / 2 ^ (4 * (7 - i)) % 16)

/-- `hashlib.sha1(msg).hexdigest()`: the 40-character hexadecimal SHA-1
digest of a byte sequence. -/
def sha1_hexdigest (msg : List Nat) : List Char :=
  let st : Sha1State :=
    (sha1_blocks (sha1_pad msg)).foldl processBlock
      (1732584193, 4023233417, 2562383102, 271733878, 3285377520)
  hex8 st.1 ++ hex8 st.2.1 ++ hex8 st.2.2.1 ++ hex8 st.2.2.2.1 ++ hex8 st.2.2.2.2

/-- `check_sha1(filename, sha1_hash)` from `utils.py`, with the file's bytes
passed in place of the filename.  Note the source truncates both strings to
`l = min(len(sha1_file), len(sha1_hash))` before comparing. -/
def check_sha1 (content : List Nat) (sha1_hash : List Char) : Bool :=
  let sha1_file := sha1_hexdigest content
  let l := min sha1_file.length sha1_hash.length
  sha1_file.take l == sha1_hash.take l

/-! ## Paths and the filesystem/network environment

`os.path.basename` / `os.path.dirname` are modelled for POSIX paths (the
root-path corner `dirname "/b" = "/"` is simplified to `""`; no claim
depends on it).  The filesystem maps a path to the bytes of the file stored
there, or `none` when no such file exists; `requests.get` is modelled by a
status code and a body per URL. -/

/-- `os.path.basename`: the part after the last `/` (also the value of
`url.split('/')[-1]` used by `download`). -/
def basename (p : String) : String :=
  String.mk (p.toList.reverse.takeWhile (fun c => !(c == '/'))).reverse

/-- `os.path.dirname`: the part before the last `/`. -/
def dirname (p : String) : String :=
  String.mk ((p.toList.reverse.dropWhile (fun c => !(c == '/'))).drop 1).reverse

/-- Environment seen by `download` and `get_model_file`: the filesystem,
`os.path` queries, the network, and the two external tables/operations
(`AVAILABLE_MODELS`, imported from `..consts`, whose value at a model name
has the URL at index 1; and `zipfile`'s list of archive entries). -/
structure Env where
  fs : String → Option (List Nat)
  is_dir : String → Bool
  expanduser : String → String
  status : String → Nat
  content : String → List Nat
  available_models : List (String × (String × String))
  zip_entries : List Nat → List (String × List Nat)

/-- Write a file. -/
def fsUpdate (fs : String → Option (List Nat)) (k : String) (v : List Nat) :
    String → Option (List Nat) :=
  fun x => if x = k then some v else fs x

/-- `os.remove`. -/
def fsRemove (fs : String → Option (List Nat)) (k : String) :
    String → Option (List Nat) :=
  fun x => if x = k then none else fs x

/-- Python truthiness of the optional `sha1_hash` argument (both `None` and
the empty string are falsy). -/
def truthy : Option (List Char) → Bool
  | none => false
  | some h => !h.isEmpty

/-- Exceptions `download` can raise. -/
inductive DownErr
  | runtimeError
  | userWarning
deriving DecidableEq

/-- Observable outcome of a `download` call: the returned path or the
exception, the filesystem afterwards, and the list of URLs requested. -/
structure DownOutcome where
  result : Except DownErr String
  fs : String → Option (List Nat)
  requested : List String

/-- Destination-file resolution of `download`'s first lines. -/
def resolve_fname (env : Env) (url : String) (path : Option String) : String :=
  match path with
  | none => basename url
  | some p =>
    let p := env.expanduser p
    if env.is_dir p then p ++ "/" ++ basename url else p

/-- The fetch condition of `download`:
`overwrite or not os.path.exists(fname) or (sha1_hash and not check_sha1(fname, sha1_hash))`. -/
def download_need (env : Env) (url : String) (path : Option String)
    (overwrite : Bool) (sha1_hash : Option (List Char)) : Bool :=
  let fname := resolve_fname env url path
  overwrite || !(env.fs fname).isSome ||
    (truthy sha1_hash &&
      !check_sha1 ((env.fs fname).getD []) (sha1_hash.getD []))

/-- `download(url, path, overwrite, sha1_hash)` from `utils.py`.  When a
fetch is needed: a non-200 status raises `RuntimeError` before any write;
otherwise the body is written to `fname`, and a `UserWarning` is raised when
`sha1_hash` is truthy and the freshly written file still fails `check_sha1`. -/
def download (env : Env) (url : String) (path : Option String)
    (overwrite : Bool) (sha1_hash : Option (List Char)) : DownOutcome :=
  let fname := resolve_fname env url path
  if download_need env url path overwrite sha1_hash then
    if env.status url ≠ 200 then ⟨.error .runtimeError, env.fs, [url]⟩
    else
      let fs1 := fsUpdate env.fs fname (env.content url)
      if truthy sha1_hash && !check_sha1 (env.content url) (sha1_hash.getD [])
      then ⟨.error .userWarning, fs1, [url]⟩
      else ⟨.ok fname, fs1, [url]⟩
  else ⟨.ok fname, env.fs, []⟩

/-! ## `get_model_file` -/

/-- Exceptions `get_model_file` can surface. -/
inductive GmfErr
  | notImplementedError
  | downloadFailed (e : DownErr)
  | fileNotFoundError
deriving DecidableEq

/-- Observable outcome of `get_model_file`: result or exception, the final
filesystem, and the extraction events `(zip path, destination dir)`. -/
structure GmfOutcome where
  result : Except GmfErr String
  fs : String → Option (List Nat)
  extracted : List (String × String)

/-- The tail of `get_model_file`: open the zip, extract every entry into
`par_dir`, delete the zip, return `model_dir`. -/
def gmf_extract (env : Env) (fs : String → Option (List Nat))
    (zip_file_path par_dir model_dir : String) : GmfOutcome :=
  match fs zip_file_path with
  | none => ⟨.error .fileNotFoundError, fs, []⟩
  | some zc =>
    let fs2 := (env.zip_entries zc).foldl
      (fun acc e => fsUpdate acc (par_dir ++ "/" ++ e.1) e.2) fs
    ⟨.ok model_dir, fsRemove fs2 zip_file_path, [(zip_file_path, par_dir)]⟩

/-- `get_model_file(model_dir)` from `utils.py`. -/
def get_model_file (env : Env) (model_dir0 : String) : GmfOutcome :=
  let model_dir := env.expanduser model_dir0
  let par_dir := dirname model_dir
  let zip_file_path := model_dir ++ ".zip"
  match env.fs zip_file_path with
  | some _ => gmf_extract env env.fs zip_file_path par_dir model_dir
  | none =>
    let model_name := basename model_dir
    match env.available_models.lookup model_name with
    | none => ⟨.error .notImplementedError, env.fs, []⟩
    | some v =>
      let d := download env v.2 (some zip_file_path) true none
      match d.result with
      | .error e => ⟨.error (.downloadFailed e), d.fs, []⟩
      | .ok _ => gmf_extract env d.fs zip_file_path par_dir model_dir

/-! ## Python dicts as insertion-ordered association lists -/

/-- `d[k] = v` on a Python dict: overwrite in place when the key is present,
append otherwise. -/
def dictInsert {κ α : Type} [BEq κ] [LawfulBEq κ] (d : List (κ × α)) (k : κ) (v : α) :
    List (κ × α) :=
  if d.any (fun p => p.1 == k) then
    d.map (fun p => if p.1 == k then (k, v) else p)
  else d ++ [(k, v)]

/-- Build a dict from a list of key/value pairs, inserting left to right. -/
def dictOfPairs {κ α : Type} [BEq κ] [LawfulBEq κ] (pairs : List (κ × α)) :
    List (κ × α) :=
  pairs.foldl (fun d p => dictInsert d p.1 p.2) []

/-! ## `read_charset` -/

/-- Python `line.rstrip('\n')`: remove every trailing newline character. -/
def rstrip_nl (s : List Char) : List Char :=
  (s.reverse.dropWhile (fun c => c == '\n')).reverse

/-- `read_charset(charset_fp)` from `utils.py`, taking the file's lines (as
the Python file iterator yields them, trailing newline included).  The
`ValueError` carrying the `Counter` of repeats is modelled as `Except.error ()`. -/
def read_charset (lines : List (List Char)) :
    Except Unit (List (List Char) × List (List Char × Nat)) :=
  let alphabet := lines.map rstrip_nl
  let inv_alph_dict := dictOfPairs (alphabet.enum.map (fun p => (p.2, p.1)))
  if alphabet.length ≠ inv_alph_dict.length then .error ()
  else .ok (alphabet, inv_alph_dict)

/-! ## `load_model_params` -/

/-- The first six characters of a key produced by `PlTrainer`. -/
def modelDotHead : List Char := ['m', 'o', 'd', 'e', 'l', '.']

/-- Python `k.split('.', maxsplit=1)[1]`: everything after the first `'.'`
(only used on keys guaranteed to contain a dot). -/
def split_after_first (c : Char) (s : List Char) : List Char :=
  (s.dropWhile (fun x => !(x == c))).drop 1

/-- `load_model_params(model, param_fp)` from `utils.py`, with
`checkpoint['state_dict']` passed in place of the file path.  Returns the
model together with the state dict handed to `model.load_state_dict`. -/
def load_model_params {μ α : Type} (model : μ) (state_dict : List (List Char × α)) :
    μ × List (List Char × α) :=
  if state_dict.all (fun kv => modelDotHead.isPrefixOf kv.1) then
    (model, state_dict.foldl
      (fun d kv => dictInsert d (split_after_first '.' kv.1) kv.2) [])
  else (model, state_dict)

/-! ## Image normalization (`normalize_img_array`)

numpy float arithmetic is modelled over `ℚ`; a pixel is its three RGB
channels.  (The float32/float64 rounding of the real arrays is not
modelled; the bound proved for C7 holds with a wide margin.) -/

/-- `RGB_MEAN = np.array([122.67891434, 116.66876762, 104.00698793])`. -/
def RGB_MEAN : Fin 3 → ℚ :=
  ![12267891434 / 100000000, 11666876762 / 100000000, 10400698793 / 100000000]

/-- `normalize_img_array(img)` from `utils.py`: cast to float (identity over
`ℚ`), subtract `RGB_MEAN` broadcast over the channel axis, divide by 255. -/
def normalize_img_array (img : List (Fin 3 → ℚ)) : List (Fin 3 → ℚ) :=
  let img1 := img.map (fun px i => px i - RGB_MEAN i)
  img1.map (fun px i => px i / 255)

/-! ## `imread` -/

/-- The exception raised by `None.astype('float32')`. -/
inductive PyErr
  | attributeError
deriving DecidableEq

/-- Which branch of `imread` produced the image. -/
inductive ImgSrc
  | fromCV2
  | fromPIL
deriving DecidableEq

/-- External image operations used by `imread`, over an abstract image
type: `cv2.imread` (`none` models a `None` return), `.astype('float32')`,
`cv2.cvtColor(..., COLOR_BGR2RGB)`, `Image.open(..).convert('RGB')` with
`np.asarray`, and `.transpose((2, 0, 1))`. -/
structure ImreadEnv (α : Type) where
  cv2_imread : String → Option α
  astype_f32 : α → α
  cvtColor_bgr2rgb : α → α
  pil_open_rgb : String → α
  transpose_chw : α → α

/-- `x.astype('float32')` applied to a possibly-`None` `cv2.imread` result:
`None` has no attribute `astype`, so it raises `AttributeError`. -/
def np_astype {α : Type} (env : ImreadEnv α) (x : Option α) :
    Except PyErr (Option α) :=
  match x with
  | none => .error .attributeError
  | some a => .ok (some (env.astype_f32 a))

/-- `imread(img_fp)` from `utils.py`.  The `.ok none` case of `np_astype`
mirrors the source's `if im is None:` PIL fallback branch. -/
def imread {α : Type} (env : ImreadEnv α) (img_fp : String) :
    Except PyErr (ImgSrc × α) :=
  match np_astype env (env.cv2_imread img_fp) with
  | .error e => .error e
  | .ok none => .ok (.fromPIL, env.transpose_chw (env.pil_open_rgb img_fp))
  | .ok (some im) => .ok (.fromCV2, env.transpose_chw (env.cvtColor_bgr2rgb im))

/-! ## `set_logger` -/

/-- A handler on the root logger. -/
inductive LogHandler
  | console
  | file (path : String) (lvl : Int)
deriving DecidableEq

/-- Observable state of the root logger. -/
structure LoggerState where
  level : Int
  handlers : List LogHandler
deriving DecidableEq

/-- `set_logger(log_file, log_level, log_file_level)` from `utils.py`:
set the root level, replace the handler list by a single console handler,
and append a file handler when `log_file` is truthy (non-`None`, non-empty). -/
def set_logger (_st : LoggerState) (log_file : Option String)
    (log_level log_file_level : Int) : LoggerState :=
  let st1 : LoggerState := ⟨log_level, [LogHandler.console]⟩
  match log_file with
  | none => st1
  | some f =>
    if f = "" then st1
    else ⟨st1.level, st1.handlers ++ [LogHandler.file f log_file_level]⟩

/-! ## Concrete environments used by the witnesses -/

/-- A filesystem holding one cached file. -/
def envCache : Env :=
  ⟨fun p => if p = "f.bin" then some [1, 2] else none,
    fun _ => false, fun s => s, fun _ => 200, fun _ => [], [], fun _ => []⟩

/-- An empty filesystem with a working network. -/
def envFetch : Env :=
  ⟨fun _ => none, fun _ => false, fun s => s, fun _ => 200,
    fun _ => [7], [], fun _ => []⟩

/-- A `PlTrainer`-style state dict with two keys `model.a` and `model.b`. -/
def sdW : List (List Char × Nat) :=
  [(['m', 'o', 'd', 'e', 'l', '.', 'a'], 1), (['m', 'o', 'd', 'e', 'l', '.', 'b'], 2)]

/-- A two-line charset file: `a` with a trailing newline, then `b`. -/
def linesW : List (List Char) := [['a', '\n'], ['b']]

/-- A filesystem already holding the zip `d/m.zip` for model dir `d/m`. -/
def envG : Env :=
  ⟨fun p => if p = "d/m.zip" then some [7] else none,
    fun _ => false, fun s => s, fun _ => 200, fun _ => [], [],
    fun _ => [("f", [1, 2])]⟩

/-- An image environment in which `cv2.imread` returns `None`. -/
def envImN : ImreadEnv Nat :=
  ⟨fun _ => none, fun a => a, fun a => a, fun _ => 0, fun a => a⟩

/-- An image environment in which `cv2.imread` succeeds with image `37`. -/
def envImS : ImreadEnv Nat :=
  ⟨fun _ => some 37, fun a => a, fun a => a, fun _ => 0, fun a => a⟩

/-- The all-black pixel. -/
def pxW : Fin 3 → ℚ := fun _ => 0

end Cnstd

namespace Cnstd

set_option maxRecDepth 10000

/-! ## Helper lemmas -/

theorem take_min_eq_aux {α : Type} (xs ys : List α) (hle : xs.length ≤ ys.length) :
    xs.take (min xs.length ys.length) = ys.take (min xs.length ys.length) ↔
      ∃ t, ys = xs ++ t := by
  rw [min_eq_left hle, List.take_length]
  constructor
  · intro h
    refine ⟨ys.drop xs.length, ?_⟩
    calc ys = ys.take xs.length ++ ys.drop xs.length :=
          (List.take_append_drop _ _).symm
      _ = xs ++ ys.drop xs.length := by rw [← h]
  · rintro ⟨t, rfl⟩
    exact (List.take_left xs t).symm

theorem take_min_eq_iff {α : Type} (xs ys : List α) :
    xs.take (min xs.length ys.length) = ys.take (min xs.length ys.length) ↔
      (∃ t, ys = xs ++ t) ∨ (∃ t, xs = ys ++ t) := by
  rcases le_total xs.length ys.length with hle | hle
  · rw [take_min_eq_aux xs ys hle]
    constructor
    · exact Or.inl
    · rintro (h | ⟨t, rfl⟩)
      · exact h
      · have ht : t = [] := by
          have := hle
          simp only [List.length_append] at this
          have : t.length = 0 := by omega
          exact List.eq_nil_of_length_eq_zero this
        exact ⟨[], by simp [ht]⟩
  · rw [min_comm, eq_comm, take_min_eq_aux ys xs hle]
    constructor
    · exact Or.inr
    · rintro (⟨t, rfl⟩ | h)
      · have ht : t = [] := by
          have := hle
          simp only [List.length_append] at this
          have : t.length = 0 := by omega
          exact List.eq_nil_of_length_eq_zero this
        exact ⟨[], by simp [ht]⟩
      · exact h

theorem check_sha1_nil (c : List Nat) : check_sha1 c [] = true := by
  simp [check_sha1]

theorem truthy_and_fail_iff (sh : Option (List Char)) (c : List Nat) :
    (truthy sh && !check_sha1 c (sh.getD [])) = true ↔
      ∃ h, sh = some h ∧ check_sha1 c h = false := by
  cases sh with
  | none => simp [truthy]
  | some h =>
    simp only [truthy, Option.getD_some, Bool.and_eq_true, Bool.not_eq_true',
      Option.some.injEq]
    cases hh : h.isEmpty
    · simp only [Bool.not_false, true_and]
      constructor
      · intro hc
        exact ⟨h, rfl, hc⟩
      · rintro ⟨h', rfl, hc⟩
        exact hc
    · have hnil : h = [] := List.isEmpty_iff.mp hh
      subst hnil
      simp [check_sha1_nil]

/-! ## C1 -/

/-- C1 (counterexample): `check_sha1` on the empty file accepts the
four-character string `"da39"`, which is not the 40-character hexadecimal
SHA-1 digest of the empty content, so acceptance is not equivalent to
digest equality. -/
theorem check_sha1_truncation_cex :
    check_sha1 [] ['d', 'a', '3', '9'] = true ∧
      sha1_hexdigest [] ≠ ['d', 'a', '3', '9'] := by
  exact ⟨by decide, by decide⟩

/-- C1 (amended): `check_sha1(filename, sha1_hash)` returns `True` iff the
hexadecimal SHA-1 digest of the file's content and `sha1_hash` agree on
their first `min(len(digest), len(sha1_hash))` characters, i.e. iff one of
the two strings extends the other. -/
theorem check_sha1_overlap_iff (content : List Nat) (sha1_hash : List Char) :
    check_sha1 content sha1_hash = true ↔
      (∃ t, sha1_hash = sha1_hexdigest content ++ t) ∨
        (∃ t, sha1_hexdigest content = sha1_hash ++ t) := by
  simp only [check_sha1, beq_iff_eq]
  exact take_min_eq_iff _ _

/-! ## C2 -/

/-- C2: when the destination file already exists and `sha1_hash` is absent
or the existing content passes `check_sha1`, `download` makes no request,
leaves the filesystem unchanged, and returns the destination path. -/
theorem download_cached_no_fetch (env : Env) (url : String) (path : Option String)
    (sha1_hash : Option (List Char)) (c : List Nat)
    (hex : env.fs (resolve_fname env url path) = some c)
    (hok : sha1_hash = none ∨ ∃ h, sha1_hash = some h ∧ check_sha1 c h = true) :
    (download env url path false sha1_hash).result =
        .ok (resolve_fname env url path) ∧
      (download env url path false sha1_hash).fs = env.fs ∧
      (download env url path false sha1_hash).requested = [] := by
  have hneed : download_need env url path false sha1_hash = false := by
    unfold download_need
    rcases hok with rfl | ⟨h, rfl, hch⟩
    · simp [hex, truthy]
    · simp [hex, truthy, hch]
  unfold download
  rw [hneed]
  simp

/-- C2 (witness): the cached file `f.bin` of `envCache` is returned without
any request. -/
theorem download_cached_no_fetch_witness :
    envCache.fs (resolve_fname envCache "u/f.bin" (some "f.bin")) = some [1, 2] ∧
      ((download envCache "u/f.bin" (some "f.bin") false none).result =
          .ok (resolve_fname envCache "u/f.bin" (some "f.bin")) ∧
        (download envCache "u/f.bin" (some "f.bin") false none).fs = envCache.fs ∧
        (download envCache "u/f.bin" (some "f.bin") false none).requested = []) :=
  ⟨rfl, download_cached_no_fetch envCache "u/f.bin" (some "f.bin") none [1, 2]
    rfl (Or.inl rfl)⟩

/-! ## C3 -/

/-- C3: whenever `download` decides to fetch (overwrite, missing file, or
hash mismatch on the existing file), it raises `RuntimeError` iff the
status is not 200, raises `UserWarning` iff the status is 200 and a given
`sha1_hash` still fails `check_sha1` on the downloaded content, returns the
destination path in all other cases, and requests exactly the URL. -/
theorem download_fetch_result (env : Env) (url : String) (path : Option String)
    (overwrite : Bool) (sha1_hash : Option (List Char))
    (hneed : overwrite = true ∨ env.fs (resolve_fname env url path) = none ∨
      ∃ h, sha1_hash = some h ∧
        check_sha1 ((env.fs (resolve_fname env url path)).getD []) h = false) :
    ((download env url path overwrite sha1_hash).result =
        .error .runtimeError ↔ env.status url ≠ 200) ∧
      ((download env url path overwrite sha1_hash).result =
          .error .userWarning ↔
        env.status url = 200 ∧
          ∃ h, sha1_hash = some h ∧ check_sha1 (env.content url) h = false) ∧
      (env.status url = 200 ∧
          (∀ h, sha1_hash = some h → check_sha1 (env.content url) h = true) →
        (download env url path overwrite sha1_hash).result =
          .ok (resolve_fname env url path)) ∧
      (download env url path overwrite sha1_hash).requested = [url] := by
  have hn : download_need env url path overwrite sha1_hash = true := by
    unfold download_need
    rcases hneed with rfl | hnone | ⟨h, heq, hch⟩
    · simp
    · simp [hnone]
    · have := (truthy_and_fail_iff sha1_hash
        ((env.fs (resolve_fname env url path)).getD [])).mpr ⟨h, heq, hch⟩
      simp [this]
  by_cases hs : env.status url = 200
  · cases hw : (truthy sha1_hash && !check_sha1 (env.content url) (sha1_hash.getD []))
    · have hdl : download env url path overwrite sha1_hash =
          ⟨.ok (resolve_fname env url path),
            fsUpdate env.fs (resolve_fname env url path) (env.content url),
            [url]⟩ := by
        simp [download, hn, hs, hw]
      rw [hdl]
      refine ⟨?_, ?_, fun _ => rfl, rfl⟩
      · constructor
        · intro habs
          cases habs
        · intro habs
          exact absurd hs habs
      · constructor
        · intro habs
          cases habs
        · rintro ⟨-, h, heq, hch⟩
          have htr : (truthy sha1_hash &&
              !check_sha1 (env.content url) (sha1_hash.getD [])) = true :=
            (truthy_and_fail_iff sha1_hash (env.content url)).mpr ⟨h, heq, hch⟩
          rw [hw] at htr
          cases htr
    · have hdl : download env url path overwrite sha1_hash =
          ⟨.error .userWarning,
            fsUpdate env.fs (resolve_fname env url path) (env.content url),
            [url]⟩ := by
        simp [download, hn, hs, hw]
      rw [hdl]
      obtain ⟨h, heq, hch⟩ :=
        (truthy_and_fail_iff sha1_hash (env.content url)).mp hw
      refine ⟨?_, ?_, ?_, rfl⟩
      · constructor
        · intro habs
          cases habs
        · intro habs
          exact absurd hs habs
      · exact ⟨fun _ => ⟨hs, h, heq, hch⟩, fun _ => rfl⟩
      · rintro ⟨-, hall⟩
        have := hall h heq
        rw [this] at hch
        cases hch
  · have hdl : download env url path overwrite sha1_hash =
        ⟨.error .runtimeError, env.fs, [url]⟩ := by
      simp [download, hn, hs]
    rw [hdl]
    refine ⟨⟨fun _ => hs, fun _ => rfl⟩, ?_, ?_, rfl⟩
    · constructor
      · intro habs
        cases habs
      · rintro ⟨h200, -⟩
        exact absurd h200 hs
    · rintro ⟨h200, -⟩
      exact absurd h200 hs

/-- C3 (witness): with an empty filesystem and a 200 status, `download`
fetches and returns the resolved destination path. -/
theorem download_fetch_result_witness :
    envFetch.fs (resolve_fname envFetch "u/f" none) = none ∧
      (((download envFetch "u/f" none false none).result =
          .error .runtimeError ↔ envFetch.status "u/f" ≠ 200) ∧
        ((download envFetch "u/f" none false none).result =
            .error .userWarning ↔
          envFetch.status "u/f" = 200 ∧
            ∃ h, (none : Option (List Char)) = some h ∧
              check_sha1 (envFetch.content "u/f") h = false) ∧
        (envFetch.status "u/f" = 200 ∧
            (∀ h, (none : Option (List Char)) = some h →
              check_sha1 (envFetch.content "u/f") h = true) →
          (download envFetch "u/f" none false none).result =
            .ok (resolve_fname envFetch "u/f" none)) ∧
        (download envFetch "u/f" none false none).requested = ["u/f"]) :=
  ⟨rfl, download_fetch_result envFetch "u/f" none false none (Or.inr (Or.inl rfl))⟩

end Cnstd

namespace Cnstd

set_option maxRecDepth 10000

/-! ## Python-dict lemmas -/

theorem dict_hasKey_iff {κ α : Type} [BEq κ] [LawfulBEq κ] (d : List (κ × α)) (k : κ) :
    (d.any fun p => p.1 == k) = true ↔ k ∈ d.map Prod.fst := by
  rw [List.any_eq_true]
  rw [List.mem_map]
  constructor
  · rintro ⟨p, hp, hpk⟩
    exact ⟨p, hp, by simpa using hpk⟩
  · rintro ⟨p, hp, hpk⟩
    exact ⟨p, hp, by simpa using hpk⟩

theorem dictInsert_new {κ α : Type} [BEq κ] [LawfulBEq κ] (d : List (κ × α)) (k : κ)
    (v : α) (hk : k ∉ d.map Prod.fst) : dictInsert d k v = d ++ [(k, v)] := by
  unfold dictInsert
  rw [if_neg]
  intro habs
  exact hk ((dict_hasKey_iff d k).mp habs)

/-- Folding Python-dict insertion over pairs whose keys are distinct and
fresh appends them in order. -/
theorem foldl_dictInsert_nodup {κ α : Type} [BEq κ] [LawfulBEq κ] :
    ∀ (l acc : List (κ × α)), (l.map Prod.fst).Nodup →
      (∀ p ∈ l, p.1 ∉ acc.map Prod.fst) →
      l.foldl (fun d p => dictInsert d p.1 p.2) acc = acc ++ l := by
  intro l
  induction l with
  | nil => intro acc _ _; simp
  | cons hd tl ih =>
    intro acc hnd hdisj
    have hhd : hd.1 ∉ acc.map Prod.fst := hdisj hd (by simp)
    have hnd' : (tl.map Prod.fst).Nodup := (List.nodup_cons.mp (by simpa using hnd)).2
    have hhdtl : hd.1 ∉ tl.map Prod.fst := (List.nodup_cons.mp (by simpa using hnd)).1
    simp only [List.foldl_cons]
    rw [dictInsert_new acc hd.1 hd.2 hhd]
    have hdisj' : ∀ p ∈ tl, p.1 ∉ (acc ++ [(hd.1, hd.2)]).map Prod.fst := by
      intro p hp
      simp only [List.map_append, List.mem_append, List.map_cons, List.map_nil,
        List.mem_singleton, not_or]
      refine ⟨hdisj p (by simp [hp]), ?_⟩
      intro habs
      apply hhdtl
      rw [← habs]
      exact List.mem_map.mpr ⟨p, hp, rfl⟩
    have := ih (acc ++ [(hd.1, hd.2)]) hnd' hdisj'
    rw [this]
    simp

theorem dictOfPairs_nodup {κ α : Type} [BEq κ] [LawfulBEq κ] (l : List (κ × α))
    (hnd : (l.map Prod.fst).Nodup) : dictOfPairs l = l := by
  have := foldl_dictInsert_nodup l [] hnd (by simp)
  simpa [dictOfPairs] using this

/-- In an association list with distinct keys, `lookup` finds the value of
any member pair. -/
theorem lookup_of_nodup {κ α : Type} [BEq κ] [LawfulBEq κ] :
    ∀ (l : List (κ × α)) (k : κ) (v : α), (l.map Prod.fst).Nodup →
      (k, v) ∈ l → l.lookup k = some v := by
  intro l
  induction l with
  | nil => intro k v _ h; cases h
  | cons hd tl ih =>
    obtain ⟨k0, v0⟩ := hd
    intro k v hnd hmem
    rw [List.map_cons] at hnd
    have hnc := List.nodup_cons.mp hnd
    by_cases hk : k = k0
    · subst hk
      have hvv : v = v0 := by
        rcases List.mem_cons.mp hmem with heq | htl
        · exact congrArg Prod.snd heq
        · exact absurd (List.mem_map.mpr ⟨(k, v), htl, rfl⟩) hnc.1
      subst hvv
      simp [List.lookup]
    · have htl : (k, v) ∈ tl := by
        rcases List.mem_cons.mp hmem with heq | htl
        · exact absurd (congrArg Prod.fst heq) hk
        · exact htl
      have hbeq : (k == k0) = false := beq_eq_false_iff_ne.mpr hk
      simp only [List.lookup, hbeq]
      exact ih k v hnc.2 htl

theorem dictInsert_length {κ α : Type} [BEq κ] [LawfulBEq κ] (d : List (κ × α))
    (k : κ) (v : α) :
    (dictInsert d k v).length =
      if k ∈ d.map Prod.fst then d.length else d.length + 1 := by
  unfold dictInsert
  by_cases hk : k ∈ d.map Prod.fst
  · rw [if_pos ((dict_hasKey_iff d k).mpr hk), if_pos hk, List.length_map]
  · rw [if_neg (fun h => hk ((dict_hasKey_iff d k).mp h)), if_neg hk]
    simp

theorem foldl_dictInsert_length_le {κ α : Type} [BEq κ] [LawfulBEq κ] :
    ∀ (l acc : List (κ × α)),
      (l.foldl (fun d p => dictInsert d p.1 p.2) acc).length ≤
        acc.length + l.length := by
  intro l
  induction l with
  | nil => intro acc; simp
  | cons hd tl ih =>
    intro acc
    simp only [List.foldl_cons, List.length_cons]
    have h1 := ih (dictInsert acc hd.1 hd.2)
    have h2 : (dictInsert acc hd.1 hd.2).length ≤ acc.length + 1 := by
      rw [dictInsert_length]
      split <;> omega
    omega

theorem foldl_dictInsert_length_iff {κ α : Type} [BEq κ] [LawfulBEq κ] :
    ∀ (l acc : List (κ × α)),
      (l.foldl (fun d p => dictInsert d p.1 p.2) acc).length =
          acc.length + l.length ↔
        (l.map Prod.fst).Nodup ∧ ∀ p ∈ l, p.1 ∉ acc.map Prod.fst := by
  intro l
  induction l with
  | nil => intro acc; simp
  | cons hd tl ih =>
    intro acc
    by_cases hk : hd.1 ∈ acc.map Prod.fst
    · have hlen : (dictInsert acc hd.1 hd.2).length = acc.length := by
        rw [dictInsert_length, if_pos hk]
      constructor
      · intro h
        exfalso
        have hle := foldl_dictInsert_length_le tl (dictInsert acc hd.1 hd.2)
        rw [hlen] at hle
        simp only [List.foldl_cons, List.length_cons] at h
        omega
      · rintro ⟨-, hdisj⟩
        exact (hdisj hd (by simp) hk).elim
    · have heq : dictInsert acc hd.1 hd.2 = acc ++ [(hd.1, hd.2)] :=
        dictInsert_new acc hd.1 hd.2 hk
      simp only [List.foldl_cons, List.length_cons, heq]
      have hlen' : (acc ++ [(hd.1, hd.2)]).length = acc.length + 1 := by simp
      have hih := ih (acc ++ [(hd.1, hd.2)])
      rw [hlen'] at hih
      have harr : acc.length + 1 + tl.length = acc.length + (tl.length + 1) := by
        omega
      rw [harr] at hih
      rw [hih]
      have hkeys : (acc ++ [(hd.1, hd.2)]).map Prod.fst =
          acc.map Prod.fst ++ [hd.1] := by simp
      constructor
      · rintro ⟨hnd, hdisj⟩
        refine ⟨?_, ?_⟩
        · rw [List.map_cons, List.nodup_cons]
          refine ⟨?_, hnd⟩
          intro habs
          obtain ⟨p, hp, hp1⟩ := List.mem_map.mp habs
          have := hdisj p hp
          rw [hkeys] at this
          simp [hp1] at this
        · intro p hp
          rcases List.mem_cons.mp hp with rfl | hptl
          · exact hk
          · have := hdisj p hptl
            rw [hkeys] at this
            simp only [List.mem_append, not_or] at this
            exact this.1
      · rintro ⟨hnd, hdisj⟩
        rw [List.map_cons, List.nodup_cons] at hnd
        refine ⟨hnd.2, ?_⟩
        intro p hp
        rw [hkeys]
        simp only [List.mem_append, not_or]
        refine ⟨hdisj p (List.mem_cons_of_mem _ hp), ?_⟩
        intro habs
        apply hnd.1
        simp only [List.mem_singleton] at habs
        rw [← habs]
        exact List.mem_map.mpr ⟨p, hp, rfl⟩

/-! ## C4 -/

theorem split_after_modelDot (t : List Char) :
    split_after_first '.' (modelDotHead ++ t) = t := rfl

/-- C4: `load_model_params` returns the model it was given; when not every
key starts with `model.` the state dict is loaded unchanged; when every key
does, each key is replaced by the part after the first `'.'`, and the
resulting dict maps each new key to the value of the original key. -/
theorem load_model_params_spec {μ α : Type} (model : μ)
    (sd : List (List Char × α)) (hnd : (sd.map Prod.fst).Nodup) :
    (load_model_params model sd).1 = model ∧
      ((sd.all fun kv => modelDotHead.isPrefixOf kv.1) = false →
        (load_model_params model sd).2 = sd) ∧
      ((sd.all fun kv => modelDotHead.isPrefixOf kv.1) = true →
        (load_model_params model sd).2 =
          sd.map (fun kv => (split_after_first '.' kv.1, kv.2)) ∧
        ∀ kv ∈ sd, ((load_model_params model sd).2).lookup
            (split_after_first '.' kv.1) = some kv.2) := by
  refine ⟨?_, ?_, ?_⟩
  · cases h : (sd.all fun kv => modelDotHead.isPrefixOf kv.1) <;>
      simp [load_model_params, h]
  · intro h
    simp [load_model_params, h]
  · intro h
    have hpre : ∀ x ∈ sd.map Prod.fst, ∃ t, x = modelDotHead ++ t := by
      intro x hx
      obtain ⟨kv, hkv, rfl⟩ := List.mem_map.mp hx
      have := (List.all_eq_true.mp h) kv hkv
      rw [List.isPrefixOf_iff_prefix] at this
      obtain ⟨t, ht⟩ := this
      exact ⟨t, ht.symm⟩
    have hmapnd : ((sd.map Prod.fst).map (split_after_first '.')).Nodup := by
      refine List.Nodup.map_on ?_ hnd
      intro x hx y hy hxy
      obtain ⟨t, rfl⟩ := hpre x hx
      obtain ⟨s, rfl⟩ := hpre y hy
      rw [split_after_modelDot, split_after_modelDot] at hxy
      rw [hxy]
    have hkeysnd :
        ((sd.map fun kv => (split_after_first '.' kv.1, kv.2)).map Prod.fst).Nodup := by
      rw [List.map_map]
      rw [List.map_map] at hmapnd
      exact hmapnd
    have hfold : (load_model_params model sd).2 =
        sd.map (fun kv => (split_after_first '.' kv.1, kv.2)) := by
      simp only [load_model_params, h, if_pos]
      have hstep : sd.foldl
          (fun d kv => dictInsert d (split_after_first '.' kv.1) kv.2) [] =
          (sd.map fun kv => (split_after_first '.' kv.1, kv.2)).foldl
            (fun d p => dictInsert d p.1 p.2) [] := by
        rw [List.foldl_map]
      rw [hstep]
      have := foldl_dictInsert_nodup
        (sd.map fun kv => (split_after_first '.' kv.1, kv.2)) [] hkeysnd
        (fun p _ => List.not_mem_nil p.1)
      simpa using this
    refine ⟨hfold, ?_⟩
    intro kv hkv
    rw [hfold]
    exact lookup_of_nodup _ _ _ hkeysnd (List.mem_map.mpr ⟨kv, hkv, rfl⟩)

/-- C4 (witness): on the two-key `PlTrainer` dict `sdW`, the keys become
`a` and `b` and the values are preserved. -/
theorem load_model_params_spec_witness :
    (sdW.map Prod.fst).Nodup ∧
      (sdW.all fun kv => modelDotHead.isPrefixOf kv.1) = true ∧
      ((load_model_params (0 : Nat) sdW).2 =
          sdW.map (fun kv => (split_after_first '.' kv.1, kv.2)) ∧
        ∀ kv ∈ sdW, ((load_model_params (0 : Nat) sdW).2).lookup
            (split_after_first '.' kv.1) = some kv.2) :=
  ⟨by decide, by decide,
    (load_model_params_spec (0 : Nat) sdW (by decide)).2.2 (by decide)⟩

/-! ## C9 -/

/-- C9: `read_charset` raises `ValueError` iff two lines coincide after
stripping the trailing newline; otherwise it returns the stripped lines in
file order together with the dict sending the `i`-th entry to `i`. -/
theorem read_charset_spec (lines : List (List Char)) :
    (read_charset lines = .error () ↔ ¬ (lines.map rstrip_nl).Nodup) ∧
      ∀ a inv, read_charset lines = .ok (a, inv) →
        a = lines.map rstrip_nl ∧
        ∀ i (h : i < a.length), inv.lookup (a.get ⟨i, h⟩) = some i := by
  have hkp : (((lines.map rstrip_nl).enum.map
      (fun p => (p.2, p.1))).map Prod.fst) = lines.map rstrip_nl := by
    rw [List.map_map]
    exact List.enum_map_snd _
  have hplen : ((lines.map rstrip_nl).enum.map (fun p => (p.2, p.1))).length =
      (lines.map rstrip_nl).length := by
    simp [List.enum_length]
  have hiff : (dictOfPairs ((lines.map rstrip_nl).enum.map
        (fun p => (p.2, p.1)))).length = (lines.map rstrip_nl).length ↔
      (lines.map rstrip_nl).Nodup := by
    unfold dictOfPairs
    have hfi := foldl_dictInsert_length_iff
      ((lines.map rstrip_nl).enum.map (fun p => (p.2, p.1))) []
    simp only [List.length_nil, Nat.zero_add] at hfi
    rw [hplen] at hfi
    rw [hfi, hkp]
    simp
  have hds : (lines.map rstrip_nl).Nodup →
      read_charset lines = .ok (lines.map rstrip_nl,
        dictOfPairs ((lines.map rstrip_nl).enum.map (fun p => (p.2, p.1)))) := by
    intro hN
    have hlen := hiff.mpr hN
    simp [read_charset, hlen]
  have herrs : ¬ (lines.map rstrip_nl).Nodup →
      read_charset lines = .error () := by
    intro hN
    have hlen : (lines.map rstrip_nl).length ≠
        (dictOfPairs ((lines.map rstrip_nl).enum.map
          (fun p => (p.2, p.1)))).length := by
      intro habs
      exact hN (hiff.mp habs.symm)
    simp only [read_charset]
    rw [if_pos hlen]
  constructor
  · by_cases hN : (lines.map rstrip_nl).Nodup
    · refine iff_of_false ?_ (by simpa using hN)
      rw [hds hN]
      intro habs
      cases habs
    · exact iff_of_true (herrs hN) hN
  · intro a inv hok
    by_cases hN : (lines.map rstrip_nl).Nodup
    · have := (hds hN).symm.trans hok
      simp only [Except.ok.injEq, Prod.mk.injEq] at this
      obtain ⟨ha, hinv⟩ := this
      subst ha
      refine ⟨rfl, ?_⟩
      intro i h
      have hknd : ((((lines.map rstrip_nl).enum.map
          (fun p => (p.2, p.1)))).map Prod.fst).Nodup := by
        rw [hkp]
        exact hN
      rw [← hinv, dictOfPairs_nodup _ hknd]
      apply lookup_of_nodup _ _ _ hknd
      have hm1 : (i, (lines.map rstrip_nl).get ⟨i, h⟩) ∈
          (lines.map rstrip_nl).enum := by
        rw [List.mk_mem_enum_iff_getElem?]
        rw [List.getElem?_eq_getElem h]
        simp [List.get_eq_getElem]
      exact List.mem_map.mpr ⟨(i, (lines.map rstrip_nl).get ⟨i, h⟩), hm1, rfl⟩
    · rw [herrs hN] at hok
      cases hok

/-- C9 (witness): on the file with lines `a\n` and `b`, `read_charset`
returns the stripped alphabet and the index dict. -/
theorem read_charset_spec_witness :
    read_charset linesW = .ok ([['a'], ['b']], [(['a'], 0), (['b'], 1)]) ∧
      (([['a'], ['b']] : List (List Char)) = linesW.map rstrip_nl ∧
        ∀ i (h : i < ([['a'], ['b']] : List (List Char)).length),
          ([(['a'], 0), (['b'], 1)] : List (List Char × Nat)).lookup
            (([['a'], ['b']] : List (List Char)).get ⟨i, h⟩) = some i) :=
  ⟨rfl, (read_charset_spec linesW).2 [['a'], ['b']]
    [(['a'], 0), (['b'], 1)] rfl⟩

/-! ## C5 -/

/-- C5: `get_model_file` raises `NotImplementedError` iff the zip
`model_dir + '.zip'` does not exist and the basename of `model_dir` is not
a key of `AVAILABLE_MODELS`; when it returns, it has extracted the zip into
the parent directory of `model_dir`, deleted the zip, and returns
`model_dir` (after `expanduser`). -/
theorem get_model_file_spec (env : Env) (md : String) :
    ((get_model_file env md).result = .error .notImplementedError ↔
      env.fs (env.expanduser md ++ ".zip") = none ∧
        env.available_models.lookup (basename (env.expanduser md)) = none) ∧
      ∀ r, (get_model_file env md).result = .ok r →
        r = env.expanduser md ∧
        (get_model_file env md).extracted =
          [(env.expanduser md ++ ".zip", dirname (env.expanduser md))] ∧
        (get_model_file env md).fs (env.expanduser md ++ ".zip") = none := by
  cases hz : env.fs (env.expanduser md ++ ".zip") with
  | some zc =>
    have hout : get_model_file env md =
        ⟨.ok (env.expanduser md),
          fsRemove ((env.zip_entries zc).foldl
            (fun acc e =>
              fsUpdate acc (dirname (env.expanduser md) ++ "/" ++ e.1) e.2)
            env.fs) (env.expanduser md ++ ".zip"),
          [(env.expanduser md ++ ".zip", dirname (env.expanduser md))]⟩ := by
      simp only [get_model_file, gmf_extract, hz]
    rw [hout]
    constructor
    · refine iff_of_false ?_ ?_
      · intro habs
        cases habs
      · rintro ⟨habs, -⟩
        cases habs
    · intro r hr
      simp only [Except.ok.injEq] at hr
      subst hr
      exact ⟨rfl, rfl, by simp [fsRemove]⟩
  | none =>
    cases hl : env.available_models.lookup (basename (env.expanduser md)) with
    | none =>
      have hout : get_model_file env md = ⟨.error .notImplementedError, env.fs, []⟩ := by
        simp only [get_model_file, hz, hl]
      rw [hout]
      constructor
      · exact iff_of_true rfl ⟨rfl, rfl⟩
      · intro r hr
        cases hr
    | some v =>
      cases hres : (download env v.2 (some (env.expanduser md ++ ".zip"))
          true none).result with
      | error e =>
        have hout : get_model_file env md =
            ⟨.error (.downloadFailed e),
              (download env v.2 (some (env.expanduser md ++ ".zip")) true none).fs,
              []⟩ := by
          simp only [get_model_file, hz, hl, hres]
        rw [hout]
        constructor
        · refine iff_of_false ?_ ?_
          · intro habs
            exact GmfErr.noConfusion (Except.error.inj habs)
          · rintro ⟨-, habs⟩
            cases habs
        · intro r hr
          cases hr
      | ok s =>
        cases hz2 : (download env v.2 (some (env.expanduser md ++ ".zip"))
            true none).fs (env.expanduser md ++ ".zip") with
        | none =>
          have hout : get_model_file env md =
              ⟨.error .fileNotFoundError,
                (download env v.2 (some (env.expanduser md ++ ".zip")) true none).fs,
                []⟩ := by
            simp only [get_model_file, gmf_extract, hz, hl, hres, hz2]
          rw [hout]
          constructor
          · refine iff_of_false ?_ ?_
            · intro habs
              exact GmfErr.noConfusion (Except.error.inj habs)
            · rintro ⟨-, habs⟩
              cases habs
          · intro r hr
            cases hr
        | some zc =>
          have hout : get_model_file env md =
              ⟨.ok (env.expanduser md),
                fsRemove ((env.zip_entries zc).foldl
                  (fun acc e =>
                    fsUpdate acc (dirname (env.expanduser md) ++ "/" ++ e.1) e.2)
                  (download env v.2 (some (env.expanduser md ++ ".zip"))
                    true none).fs) (env.expanduser md ++ ".zip"),
                [(env.expanduser md ++ ".zip", dirname (env.expanduser md))]⟩ := by
            simp only [get_model_file, gmf_extract, hz, hl, hres, hz2]
          rw [hout]
          constructor
          · refine iff_of_false ?_ ?_
            · intro habs
              cases habs
            · rintro ⟨-, habs⟩
              cases habs
          · intro r hr
            simp only [Except.ok.injEq] at hr
            subst hr
            exact ⟨rfl, rfl, by simp [fsRemove]⟩

/-- C5 (witness): with the zip `d/m.zip` already on disk, `get_model_file`
extracts it into `d`, removes it, and returns `d/m`. -/
theorem get_model_file_spec_witness :
    (get_model_file envG "d/m").result = .ok "d/m" ∧
      ("d/m" = envG.expanduser "d/m" ∧
        (get_model_file envG "d/m").extracted =
          [(envG.expanduser "d/m" ++ ".zip", dirname (envG.expanduser "d/m"))] ∧
        (get_model_file envG "d/m").fs (envG.expanduser "d/m" ++ ".zip") = none) :=
  ⟨rfl, (get_model_file_spec envG "d/m").2 "d/m" rfl⟩

/-! ## C7 -/

/-- C7: `normalize_img_array` returns elementwise
`(img - RGB_MEAN) / 255.0`, and for channel values in `[0, 255]` every
entry of the result lies in `[-1, 1]`. -/
theorem normalize_img_array_spec (img : List (Fin 3 → ℚ))
    (hb : ∀ px ∈ img, ∀ i, 0 ≤ px i ∧ px i ≤ 255) :
    normalize_img_array img =
        img.map (fun px i => (px i - RGB_MEAN i) / 255) ∧
      ∀ q ∈ normalize_img_array img, ∀ i, -1 ≤ q i ∧ q i ≤ 1 := by
  have hform : normalize_img_array img =
      img.map (fun px i => (px i - RGB_MEAN i) / 255) := by
    unfold normalize_img_array
    rw [List.map_map]
    rfl
  refine ⟨hform, ?_⟩
  intro q hq i
  rw [hform] at hq
  obtain ⟨px, hpx, rfl⟩ := List.mem_map.mp hq
  obtain ⟨h0, h255⟩ := hb px hpx i
  have hm0 : 0 ≤ RGB_MEAN i ∧ RGB_MEAN i ≤ 255 := by
    fin_cases i <;> constructor <;> norm_num [RGB_MEAN]
  constructor
  · rw [le_div_iff₀ (by norm_num : (0 : ℚ) < 255)]
    linarith [hm0.2]
  · rw [div_le_iff₀ (by norm_num : (0 : ℚ) < 255)]
    linarith [hm0.1]

/-- C7 (witness): the all-black single-pixel image is normalized into
`[-1, 1]`. -/
theorem normalize_img_array_spec_witness :
    (∀ px ∈ [pxW], ∀ i, 0 ≤ px i ∧ px i ≤ 255) ∧
      (normalize_img_array [pxW] =
          [pxW].map (fun px i => (px i - RGB_MEAN i) / 255) ∧
        ∀ q ∈ normalize_img_array [pxW], ∀ i, -1 ≤ q i ∧ q i ≤ 1) := by
  have hbW : ∀ px ∈ [pxW], ∀ i, (0 : ℚ) ≤ px i ∧ px i ≤ 255 := by
    intro px hpx i
    simp only [List.mem_singleton] at hpx
    subst hpx
    norm_num [pxW]
  exact ⟨hbW, normalize_img_array_spec [pxW] hbW⟩

/-! ## C8 -/

/-- C8: the PIL fallback branch of `imread` is unreachable: when
`cv2.imread` returns `None`, the call `.astype('float32')` raises
`AttributeError` before the `None` check runs, and every successful return
of `imread` comes from the `cv2` branch. -/
theorem imread_pil_branch_dead {α : Type} (env : ImreadEnv α) (fp : String) :
    (env.cv2_imread fp = none → imread env fp = .error .attributeError) ∧
      ∀ s im, imread env fp = .ok (s, im) → s = .fromCV2 := by
  constructor
  · intro h
    simp [imread, np_astype, h]
  · intro s im hok
    cases hcv : env.cv2_imread fp with
    | none => simp [imread, np_astype, hcv] at hok
    | some a =>
      simp only [imread, np_astype, hcv, Except.ok.injEq, Prod.mk.injEq] at hok
      exact hok.1.symm

/-- C8 (witness): a `None` from `cv2.imread` raises `AttributeError`, and a
successful read is tagged as coming from cv2. -/
theorem imread_pil_branch_dead_witness :
    envImN.cv2_imread "a" = none ∧
      imread envImN "a" = .error .attributeError ∧
      ImgSrc.fromCV2 = ImgSrc.fromCV2 :=
  ⟨rfl, (imread_pil_branch_dead envImN "a").1 rfl,
    (imread_pil_branch_dead envImS "a").2 ImgSrc.fromCV2 37 rfl⟩

/-! ## C10 -/

/-- C10: `set_logger` sets the root level to `log_level` and replaces the
handlers with exactly one console handler, appending one file handler at
`log_file_level` exactly when `log_file` is a non-empty value. -/
theorem set_logger_spec (st : LoggerState) (log_file : Option String)
    (log_level log_file_level : Int) :
    (set_logger st log_file log_level log_file_level).level = log_level ∧
      ((log_file = none ∨ log_file = some "") →
        (set_logger st log_file log_level log_file_level).handlers =
          [LogHandler.console]) ∧
      ∀ f, log_file = some f → f ≠ "" →
        (set_logger st log_file log_level log_file_level).handlers =
          [LogHandler.console, LogHandler.file f log_file_level] := by
  refine ⟨?_, ?_, ?_⟩
  · cases log_file with
    | none => rfl
    | some f =>
      by_cases hf : f = ""
      · simp [set_logger, hf]
      · simp [set_logger, hf]
  · rintro (rfl | rfl)
    · rfl
    · simp [set_logger]
  · rintro f rfl hne
    simp [set_logger, hne]

/-- C10 (witness): with no log file there is exactly the console handler;
with `log.txt` there are exactly the console and the file handler. -/
theorem set_logger_spec_witness :
    ((none : Option String) = none ∨ (none : Option String) = some "") ∧
      (set_logger ⟨0, []⟩ none 20 0).level = 20 ∧
      (set_logger ⟨0, []⟩ none 20 0).handlers = [LogHandler.console] ∧
      (set_logger ⟨0, []⟩ (some "log.txt") 20 0).handlers =
        [LogHandler.console, LogHandler.file "log.txt" 0] :=
  ⟨Or.inl rfl, (set_logger_spec ⟨0, []⟩ none 20 0).1,
    (set_logger_spec ⟨0, []⟩ none 20 0).2.1 (Or.inl rfl),
    (set_logger_spec ⟨0, []⟩ (some "log.txt") 20 0).2.2 "log.txt" rfl
      (by decide)⟩

end Cnstd
